import Mathlib

/-
Verification of the invertible-layer core of the flowgmm repository.

Shallow embedding conventions:
  * a torch tensor of shape (bs, c, h, w) is a function
    `Fin bs → Fin c → Fin h → Fin w → α`;
  * floating-point arithmetic is embedded as exact arithmetic in a field
    (`ℚ` where the development must compute inside proofs, `ℝ` where the
    source uses transcendental functions such as `log`, `exp`, `cos`);
  * `torch.rfft`/`torch.irfft` (full two-sided mode, as used by the source)
    are the exact two-dimensional discrete Fourier transform and its
    inverse, parametrised by the root-of-unity kernel of the transform;
  * python exceptions are embedded with `Except`;
  * `F.cross_entropy`'s mean reduction over an empty batch, which produces
    an IEEE NaN (0/0), is embedded as `Option.none`.

Sources embedded:
  * src/invertible/downsample.py            (SqueezeLayer, squeeze, unsqueeze,
                                             padChannels, split, merge)
  * src/flow_ssl/invertible/coupling_layers.py
                                            (iConv2d, iConv1x1, iCoordInjection,
                                             inverse_fft_conv3x3_pytorch, phi,
                                             phi_vec, phi_inv_vec)
  * src/experiments/train_flows/train_semisup_cons_ssclustering.py
                                            (train-step cross-entropy slice,
                                             dataset selection)
-/

namespace FlowGMM

/-- A torch tensor of shape `(bs, c, h, w)` with entries in `α`. -/
abbrev T4 (bs c h w : ℕ) (α : Type) := Fin bs → Fin c → Fin h → Fin w → α

/-! ### src/invertible/downsample.py -/

/-- `squeeze(input, r)` from downsample.py:
`[:, C, H*r, W*r] -> [:, C*r^2, H, W]` realised as
`view(bs, c, H/r, r, W/r, r) → permute(0,1,3,5,2,4) → view(bs, c*r^2, H/r, W/r)`.
Composing the two `view`s and the `permute` on the index level, output entry
`(b, c', i, j)` reads input entry
`(b, c'/(r*r), i*r + (c' % (r*r))/r, j*r + (c' % (r*r)) % r)`. -/
def squeeze {bs c H W : ℕ} (x : T4 bs c H W α) (r : ℕ) :
    T4 bs (c * (r * r)) (H / r) (W / r) α :=
  fun b c' i j =>
    x b ⟨c'.val / (r * r),
          Nat.div_lt_of_lt_mul (Nat.lt_of_lt_of_eq c'.isLt (Nat.mul_comm c (r * r)))⟩
      ⟨i.val * r + (c'.val % (r * r)) / r, by
          have hrr : 0 < r * r := by
            rcases Nat.eq_zero_or_pos (r * r) with h0 | h0
            · exact absurd c'.isLt (by simp [h0])
            · exact h0
          have hq : (c'.val % (r * r)) / r < r :=
            Nat.div_lt_of_lt_mul (Nat.mod_lt _ hrr)
          calc i.val * r + (c'.val % (r * r)) / r
              < i.val * r + r := Nat.add_lt_add_left hq _
            _ = (i.val + 1) * r := by ring
            _ ≤ (H / r) * r := Nat.mul_le_mul_right r (Nat.succ_le_of_lt i.isLt)
            _ ≤ H := Nat.div_mul_le_self H r⟩
      ⟨j.val * r + (c'.val % (r * r)) % r, by
          have hrr : 0 < r * r := by
            rcases Nat.eq_zero_or_pos (r * r) with h0 | h0
            · exact absurd c'.isLt (by simp [h0])
            · exact h0
          have hr : 0 < r := Nat.pos_of_ne_zero (fun h => by subst h; simp at hrr)
          have hq : (c'.val % (r * r)) % r < r := Nat.mod_lt _ hr
          calc j.val * r + (c'.val % (r * r)) % r
              < j.val * r + r := Nat.add_lt_add_left hq _
            _ = (j.val + 1) * r := by ring
            _ ≤ (W / r) * r := Nat.mul_le_mul_right r (Nat.succ_le_of_lt j.isLt)
            _ ≤ W := Nat.div_mul_le_self W r⟩

/-- `unsqueeze(input, r)` from downsample.py:
`[:, C*r^2, H, W] -> [:, C, H*r, W*r]` realised as
`view(bs, C', r, r, h, w) → permute(0,1,4,2,5,3) → view(bs, C', h*r, w*r)`.
Output entry `(b, ci, y, x')` reads input entry
`(b, ci*(r*r) + (y % r)*r + x' % r, y/r, x'/r)`. -/
def unsqueeze {bs C h w : ℕ} (x : T4 bs C h w α) (r : ℕ) :
    T4 bs (C / (r * r)) (h * r) (w * r) α :=
  fun b ci y x' =>
    x b ⟨ci.val * (r * r) + (y.val % r) * r + x'.val % r, by
          have hrr : 0 < r * r := by
            rcases Nat.eq_zero_or_pos (r * r) with h0 | h0
            · exact absurd ci.isLt (by simp [h0, Nat.div_zero])
            · exact h0
          have hr : 0 < r := Nat.pos_of_ne_zero (fun h => by subst h; simp at hrr)
          have hy : (y.val % r) * r ≤ (r - 1) * r :=
            Nat.mul_le_mul_right r (Nat.le_sub_one_of_lt (Nat.mod_lt _ hr))
          have hx : x'.val % r < r := Nat.mod_lt _ hr
          have hoffs : (y.val % r) * r + x'.val % r < r * r := by
            calc (y.val % r) * r + x'.val % r
                < (y.val % r) * r + r := Nat.add_lt_add_left hx _
              _ = (y.val % r + 1) * r := by ring
              _ ≤ r * r := Nat.mul_le_mul_right r (Nat.mod_lt _ hr)
          calc ci.val * (r * r) + (y.val % r) * r + x'.val % r
              = ci.val * (r * r) + ((y.val % r) * r + x'.val % r) := by ring
            _ < ci.val * (r * r) + r * r := Nat.add_lt_add_left hoffs _
            _ = (ci.val + 1) * (r * r) := by ring
            _ ≤ (C / (r * r)) * (r * r) :=
                Nat.mul_le_mul_right _ (Nat.succ_le_of_lt ci.isLt)
            _ ≤ C := Nat.div_mul_le_self C (r * r)⟩
      ⟨y.val / r,
          Nat.div_lt_of_lt_mul (Nat.lt_of_lt_of_eq y.isLt (Nat.mul_comm h r))⟩
      ⟨x'.val / r,
          Nat.div_lt_of_lt_mul (Nat.lt_of_lt_of_eq x'.isLt (Nat.mul_comm w r))⟩

/-- `SqueezeLayer.forward` (downsample.py, lines 12–14): destructures the
input pair `(x, z)` and returns `(squeeze(x, downscale_factor), z)`;
`z` is an arbitrary companion value of the flow state. -/
def SqueezeLayer_forward {bs c H W : ℕ} {ζ : Type} (r : ℕ)
    (inp : T4 bs c H W α × ζ) :
    T4 bs (c * (r * r)) (H / r) (W / r) α × ζ :=
  (squeeze inp.1 r, inp.2)

/-- `SqueezeLayer.inverse` (downsample.py, lines 15–17): destructures the
output pair `(y, z_out)` and returns `(unsqueeze(y, downscale_factor), z_out)`. -/
def SqueezeLayer_inverse {bs C h w : ℕ} {ζ : Type} (r : ℕ)
    (out : T4 bs C h w α × ζ) :
    T4 bs (C / (r * r)) (h * r) (w * r) α × ζ :=
  (unsqueeze out.1 r, out.2)

/-- `SqueezeLayer.logdet` (downsample.py, lines 18–19):
`raise NotImplementedError` regardless of the argument. -/
def SqueezeLayer_logdet {bs c h w : ℕ} (_r : ℕ) (_y : T4 bs c h w α) :
    Except String α :=
  Except.error ("NotImplementedError")

/-- `padChannels.forward` (downsample.py, lines 60–63): permute the channel
axis into `ZeroPad2d((0,0,0,pad_size))` position, append `p` zero channels,
permute back.  Output entry `(b, i, y, x')` is the input entry when `i < c`
and `0` for the appended channels. -/
def padChannels_forward [Zero α] {bs c h w : ℕ} (p : ℕ) (x : T4 bs c h w α) :
    T4 bs (c + p) h w α :=
  fun b i y x' => if hi : i.val < c then x b ⟨i.val, hi⟩ y x' else 0

/-- `padChannels.inverse` (downsample.py, lines 65–66):
`x[:, :x.size(1) - self.pad_size, :, :]`. -/
def padChannels_inverse {bs c' h w : ℕ} (p : ℕ) (x : T4 bs c' h w α) :
    T4 bs (c' - p) h w α :=
  fun b i y x' => x b ⟨i.val, by omega⟩ y x'

/-- `split(x, k)` (downsample.py, lines 69–72): `(x[:, :k], x[:, k:])`.
Python slicing clamps `:k` at the channel count, hence the first part has
`min k c` channels. -/
def split {bs c h w : ℕ} (x : T4 bs c h w α) (k : ℕ) :
    T4 bs (min k c) h w α × T4 bs (c - k) h w α :=
  (fun b i y x' => x b ⟨i.val, lt_of_lt_of_le i.isLt (min_le_right k c)⟩ y x',
   fun b i y x' => x b ⟨k + i.val, by omega⟩ y x')

/-- `merge(x1, x2)` (downsample.py, lines 74–75): `torch.cat((x1, x2), 1)`. -/
def merge {bs k₁ k₂ h w : ℕ} (x1 : T4 bs k₁ h w α) (x2 : T4 bs k₂ h w α) :
    T4 bs (k₁ + k₂) h w α :=
  fun b i y x' =>
    if hi : i.val < k₁ then x1 b ⟨i.val, hi⟩ y x'
    else x2 b ⟨i.val - k₁, by omega⟩ y x'

/-! ### src/experiments/train_flows/train_semisup_cons_ssclustering.py -/

/-- Decides whether `needle` occurs contiguously inside `hay`
(used to formalise "the error message echoes the invalid name"). -/
def containsSub (needle : List Char) : List Char → Bool
  | [] => needle.isEmpty
  | c :: t => needle.isPrefixOf (c :: t) || containsSub needle t

/-- `echoesName name msg` holds when the dataset name occurs verbatim in the
error message. -/
def echoesName (name msg : String) : Bool :=
  containsSub name.data msg.data

/-- Python's `str.lower()` for the ASCII dataset names involved, as a
character-wise map. -/
def strLower (s : String) : String := ⟨s.data.map Char.toLower⟩

/-- The dataset-selection prologue of the training script (lines 191–208):
`mnist` is accepted (image shape `(1, 28, 28)`), `cifar10`/`svhn` are
recognised but raise `ValueError("Only MNIST is implemented")`, and any other
name raises `ValueError("Unsupported dataset " + args.dataset)`.  All of this
happens before the data loaders and the model are built. -/
def datasetSelect (name : String) : Except String (ℕ × ℕ × ℕ) :=
  if strLower name = ("mnist") then Except.ok (1, 28, 28)
  else if strLower name = ("cifar10") ∨ strLower name = ("svhn") then
    Except.error ("Only MNIST is implemented")
  else Except.error ("Unsupported dataset " ++ name)

/-- Modelled from the spec: the reserved "no label" sentinel
(`NO_LABEL` from `flow_ssl.data`, whose source is not included); unlabeled
samples carry a label value distinct from every class index in `[0, K)`. -/
def NO_LABEL : ℤ := -1

/-- `labeled_mask = (y != NO_LABEL)` (training script, line 58). -/
def labeledMask {bs : ℕ} (y : Fin bs → ℤ) : Fin bs → Bool :=
  fun b => decide (y b ≠ NO_LABEL)

/-- `F.cross_entropy(logits, targets)` with the default mean reduction:
per-sample negative log-softmax averaged over the batch.  For an empty batch
the reduction computes `0/0`, which is an IEEE NaN; the NaN outcome is
embedded as `Option.none` (a defined real number is `some`).  A target that
is not a valid class index would raise; it is embedded by reading logit `0`,
which is irrelevant to the claims settled here. -/
noncomputable def crossEntropyMean (K : ℕ) (logits : List (Fin K → ℝ))
    (targets : List ℤ) : Option ℝ :=
  if logits.length = 0 then none
  else
    some (((logits.zip targets).map (fun p =>
      -(((if h : 0 ≤ p.2 ∧ p.2.toNat < K then p.1 ⟨p.2.toNat, h.2⟩ else 0)
          - Real.log (∑ j, Real.exp (p.1 j)))))).sum / logits.length)

/-- The labeled cross-entropy slice of one training step
(training script, lines 58 and 71–76): select the rows of the flattened
latent batch `z1` whose label differs from `NO_LABEL`, apply the prior's
`class_logits`, and take `F.cross_entropy` over the selected samples.
`class_logits` is the external prior collaborator and is kept abstract. -/
noncomputable def trainLossNll {bs d : ℕ} (K : ℕ)
    (z1 : Fin bs → Fin d → ℝ) (y : Fin bs → ℤ)
    (class_logits : (Fin d → ℝ) → Fin K → ℝ) : Option ℝ :=
  let sel := (List.finRange bs).filter (fun b => labeledMask y b)
  crossEntropyMean K (sel.map (fun b => class_logits (z1 b)))
    (sel.map (fun b => y b))

/-! ### Complex pairs

The source stores the output of `torch.rfft(·, 2, onesided=False)` as a real
tensor with a trailing dimension of size 2 (real part at index 0, imaginary
part at index 1).  `Cx α` is that pair, with the complex ring structure. -/

@[ext]
structure Cx (α : Type) where
  re : α
  im : α
deriving DecidableEq

namespace Cx

def add [Add α] (z w : Cx α) : Cx α := ⟨z.re + w.re, z.im + w.im⟩

def mul [Mul α] [Add α] [Sub α] (z w : Cx α) : Cx α :=
  ⟨z.re * w.re - z.im * w.im, z.re * w.im + z.im * w.re⟩

def neg [Neg α] (z : Cx α) : Cx α := ⟨-z.re, -z.im⟩

instance instAddCx [Add α] : Add (Cx α) := ⟨Cx.add⟩
instance instMulCx [Mul α] [Add α] [Sub α] : Mul (Cx α) := ⟨Cx.mul⟩
instance instNegCx [Neg α] : Neg (Cx α) := ⟨Cx.neg⟩
instance instZeroCx [Zero α] : Zero (Cx α) := ⟨⟨0, 0⟩⟩
instance instOneCx [One α] [Zero α] : One (Cx α) := ⟨⟨1, 0⟩⟩

@[simp] theorem add_re [Add α] (z w : Cx α) : (z + w).re = z.re + w.re := rfl
@[simp] theorem add_im [Add α] (z w : Cx α) : (z + w).im = z.im + w.im := rfl
@[simp] theorem mul_re [Mul α] [Add α] [Sub α] (z w : Cx α) :
    (z * w).re = z.re * w.re - z.im * w.im := rfl
@[simp] theorem mul_im [Mul α] [Add α] [Sub α] (z w : Cx α) :
    (z * w).im = z.re * w.im + z.im * w.re := rfl
@[simp] theorem neg_re [Neg α] (z : Cx α) : (-z).re = -z.re := rfl
@[simp] theorem neg_im [Neg α] (z : Cx α) : (-z).im = -z.im := rfl
@[simp] theorem zero_re [Zero α] : (0 : Cx α).re = 0 := rfl
@[simp] theorem zero_im [Zero α] : (0 : Cx α).im = 0 := rfl
@[simp] theorem one_re [One α] [Zero α] : (1 : Cx α).re = 1 := rfl
@[simp] theorem one_im [One α] [Zero α] : (1 : Cx α).im = 0 := rfl

instance [CommRing α] : CommRing (Cx α) where
  add := (· + ·)
  add_assoc := by intro a b c; ext <;> simp <;> ring
  zero := (0 : Cx α)
  zero_add := by intro a; ext <;> simp
  add_zero := by intro a; ext <;> simp
  add_comm := by intro a b; ext <;> simp <;> ring
  mul := (· * ·)
  left_distrib := by intro a b c; ext <;> simp <;> ring
  right_distrib := by intro a b c; ext <;> simp <;> ring
  zero_mul := by intro a; ext <;> simp
  mul_zero := by intro a; ext <;> simp
  mul_assoc := by intro a b c; ext <;> simp <;> ring
  one := (1 : Cx α)
  one_mul := by intro a; ext <;> simp
  mul_one := by intro a; ext <;> simp
  mul_comm := by intro a b; ext <;> simp <;> ring
  neg := (-·)
  neg_add_cancel := by intro a; ext <;> simp
  nsmul := nsmulRec
  zsmul := zsmulRec

end Cx

/-! ### Exact DFT and exact linear algebra

`torch.rfft(·, 2, onesided=False, normalized=False)` and the matching
`torch.irfft` are the unnormalised two-dimensional DFT and its inverse
(which carries the `1/(h*w)` factor and keeps the real part).  The transform
kernel is passed explicitly: `e k` stands for `exp(-2*π*I*k/N)` for the axis
length `N`; `twR N` below is that kernel over `ℝ`, and `tw4` is the same
kernel for `N = 4`, where all its values are exact rationals. -/

def rfft2 [CommRing α] {h w : ℕ} (e1 e2 : ℤ → Cx α) (f : Fin h → Fin w → α) :
    Fin h → Fin w → Cx α :=
  fun k l => ∑ m, ∑ nn,
    (⟨f m nn, 0⟩ : Cx α) * e1 ((k.val * m.val : ℕ) : ℤ) * e2 ((l.val * nn.val : ℕ) : ℤ)

/-- Inverse two-dimensional DFT, real output (torch.irfft with
`onesided=False, normalized=False` discards the imaginary part and divides
by the element count). -/
def irfft2 [Field α] {h w : ℕ} (e1 e2 : ℤ → Cx α) (F : Fin h → Fin w → Cx α) :
    Fin h → Fin w → α :=
  fun m nn => (((h * w : ℕ) : α))⁻¹ *
    (∑ k, ∑ l, F k l * e1 (-((k.val * m.val : ℕ) : ℤ)) * e2 (-((l.val * nn.val : ℕ) : ℤ))).re

/-- The DFT kernel `k ↦ exp(-2*π*I*k/N)` over the reals. -/
noncomputable def twR (N : ℕ) (k : ℤ) : Cx ℝ :=
  ⟨Real.cos (2 * Real.pi * k / N), -Real.sin (2 * Real.pi * k / N)⟩

/-- The DFT kernel for `N = 4`: the exact fourth roots of unity
`(-I)^k`, all of which are exact rationals, so the whole FFT pipeline can be
evaluated inside proofs.  `twR_four_eq` below verifies that this is exactly
`twR 4` transported along `ℚ → ℝ`. -/
def tw4 (k : ℤ) : Cx ℚ :=
  if k % 4 = 0 then ⟨1, 0⟩
  else if k % 4 = 1 then ⟨0, -1⟩
  else if k % 4 = 2 then ⟨-1, 0⟩
  else ⟨0, 1⟩

/-- First minor: drop row `i` and column `j`. -/
def minor {m : ℕ} (A : Fin (m + 1) → Fin (m + 1) → α) (i j : Fin (m + 1)) :
    Fin m → Fin m → α :=
  fun a b => A (i.succAbove a) (j.succAbove b)

/-- Exact determinant by Laplace expansion along the first column
(the embedding of the exact determinant used by `torch.inverse` /
`torch.slogdet`). -/
def detL [CommRing α] : {m : ℕ} → (Fin m → Fin m → α) → α
  | 0, _ => 1
  | _ + 1, A => ∑ i, (-1 : α) ^ i.val * A i 0 * detL (minor A i 0)

/-- Exact matrix inverse `A⁻¹ = adj(A) / det(A)` (the embedding of
`torch.inverse`; on a singular matrix torch raises, while this embedding
returns the zero matrix — irrelevant on the invertible matrices the claims
touch). -/
def matInverse [Field α] : {m : ℕ} → (Fin m → Fin m → α) → (Fin m → Fin m → α)
  | 0, _ => fun i _ => i.elim0
  | _ + 1, A => fun i j => (detL A)⁻¹ * ((-1 : α) ^ (i.val + j.val) * detL (minor A j i))

/-- Matrix–vector product (`torch.matmul` against a stacked vector). -/
def matVec [CommRing α] {m : ℕ} (M : Fin m → Fin m → α) (v : Fin m → α) :
    Fin m → α :=
  fun i => ∑ j, M i j * v j

/-! ### src/flow_ssl/invertible/coupling_layers.py -/

/-- `phi(C)` (coupling_layers.py, lines 159–166): the realification
`[[A, B], [-B, A]]` of the complex matrix `C = A + iB`
(the code's `torch.cat` layout puts `B` in the top-right block and `-B` in
the bottom-left block). -/
def phiMat {c : ℕ} (M : Fin c → Fin c → Cx α) [Neg α] :
    Fin (c + c) → Fin (c + c) → α :=
  fun i j =>
    if hi : i.val < c then
      if hj : j.val < c then (M ⟨i.val, hi⟩ ⟨j.val, hj⟩).re
      else (M ⟨i.val, hi⟩ ⟨j.val - c, by omega⟩).im
    else
      if hj : j.val < c then -((M ⟨i.val - c, by omega⟩ ⟨j.val, hj⟩).im)
      else (M ⟨i.val - c, by omega⟩ ⟨j.val - c, by omega⟩).re

/-- `phi_vec(v)` (coupling_layers.py, lines 174–178): `cat [a, b]` along the
channel axis for the complex vector `v = a + ib`. -/
def phiVec {c : ℕ} (v : Fin c → Cx α) : Fin (c + c) → α :=
  fun j =>
    if hj : j.val < c then (v ⟨j.val, hj⟩).re else (v ⟨j.val - c, by omega⟩).im

/-- `phi_inv_vec(v)` (coupling_layers.py, lines 179–182): chunk the realified
vector back into real and imaginary halves. -/
def phiInvVec {c : ℕ} (v : Fin (c + c) → α) : Fin c → Cx α :=
  fun ci => ⟨v ⟨ci.val, by omega⟩, v ⟨c + ci.val, by omega⟩⟩

/-- `torch.roll(v, s)` along one axis: entry `i` of the output is entry
`(i - s) mod n` of the input. -/
def rollTorch {n : ℕ} (s : ℤ) (v : Fin n → α) : Fin n → α :=
  fun i =>
    v ⟨(((i.val : ℤ) - s).emod n).toNat, by
        have hn : 0 < n := i.pos
        have h1 : 0 ≤ ((i.val : ℤ) - s).emod n :=
          Int.emod_nonneg _ (by exact_mod_cast Nat.pos_iff_ne_zero.mp hn)
        have h2 : ((i.val : ℤ) - s).emod n < n :=
          Int.emod_lt_of_pos _ (by exact_mod_cast hn)
        omega⟩

/-- `inverse_fft_conv3x3_pytorch(x, weight)` (coupling_layers.py,
lines 140–157), with the tensor-layout `permute`s folded into the index
functions.  The kernel is zero-padded to `n × n` (the code pads both spatial
axes by amounts computed from the input's *width*, so the procedure is only
well-formed for square inputs, embedded here with side `n`), the padded
kernel's column 1 is negated (`padded_weight[..., 1] *= -1`, the code's
attempted complex conjugation), the per-frequency-bin realified kernel
matrix is inverted and applied to the realified input spectrum, and the
result is transformed back and rolled by `-((h-1)//2)` on the height axis
and `-((w-1)//2)` on the width axis. -/
def fft_deconv3x3 [Field α] (e : ℤ → Cx α) {bs c n : ℕ}
    (x : T4 bs c n n α) (weight : Fin c → Fin c → Fin 3 → Fin 3 → α) :
    T4 bs c n n α :=
  -- fft_input = torch.rfft(x, 2, onesided=False, normalized=False)
  let fft_input : Fin bs → Fin c → Fin n → Fin n → Cx α :=
    fun b ci => rfft2 e e (x b ci)
  -- phi_fft_input = phi_vec(fft_input).permute(2,3,1,0)
  let phi_fft_input : Fin n → Fin n → Fin (c + c) → Fin bs → α :=
    fun k l j b => phiVec (fun ci => fft_input b ci k l) j
  -- padded_weight = F.pad(weight, ((w-3)//2, (w-3)//2+(w-3)%2, ×2)):
  -- 3×3 kernel placed at offset (n-3)/2 on both axes of an n×n zero grid
  let padded_weight : Fin c → Fin c → Fin n → Fin n → α :=
    fun o i m nn =>
      if hm : (n - 3) / 2 ≤ m.val ∧ m.val < (n - 3) / 2 + 3 ∧
              (n - 3) / 2 ≤ nn.val ∧ nn.val < (n - 3) / 2 + 3 then
        weight o i ⟨m.val - (n - 3) / 2, by omega⟩ ⟨nn.val - (n - 3) / 2, by omega⟩
      else 0
  -- padded_weight[..., 1] *= -1
  let negated_weight : Fin c → Fin c → Fin n → Fin n → α :=
    fun o i m nn =>
      if nn.val = 1 then -(padded_weight o i m nn) else padded_weight o i m nn
  -- fft_weight = torch.rfft(padded_weight, 2, onesided=False, normalized=False)
  let fft_weight : Fin c → Fin c → Fin n → Fin n → Cx α :=
    fun o i => rfft2 e e (negated_weight o i)
  -- inverse_phi_fft_weight = torch.inverse(phi(fft_weight).permute(2,3,0,1))
  let inverse_phi_fft_weight : Fin n → Fin n → Fin (c + c) → Fin (c + c) → α :=
    fun k l => matInverse (phiMat (fun o i => fft_weight o i k l))
  -- product = phi_inv_vec((inverse_phi_fft_weight @ phi_fft_input).permute(3,2,0,1))
  let product : Fin bs → Fin c → Fin n → Fin n → Cx α :=
    fun b ci k l =>
      phiInvVec (matVec (inverse_phi_fft_weight k l) (fun j => phi_fft_input k l j b)) ci
  -- conv_inverse = torch.irfft(product, 2, onesided=False, normalized=False)
  fun b ci => irfft2 e e (product b ci)

/-- The final lines of `inverse_fft_conv3x3_pytorch`:
`unshifted = roll(roll(conv_inverse, -((h-1)//2), -2), -((w-1)//2), -1)`
applied to the frequency-domain deconvolution `fft_deconv3x3` above. -/
def inverse_fft_conv3x3_pytorch [Field α] (e : ℤ → Cx α) {bs c n : ℕ}
    (x : T4 bs c n n α) (weight : Fin c → Fin c → Fin 3 → Fin 3 → α) :
    T4 bs c n n α :=
  fun b ci i j =>
    rollTorch (-(((n - 1) / 2 : ℕ) : ℤ))
      (fun i' => rollTorch (-(((n - 1) / 2 : ℕ) : ℤ))
        (fun j' => fft_deconv3x3 e x weight b ci i' j') j) i

/-- Modelled from the spec: `pad_circular_nd(x, 1, dim=[2,3])` (imported by
coupling_layers.py from `.normalizations`, whose source is not included):
circular-pad the input by 1 pixel on each spatial edge. -/
def padCircular [Zero α] {bs c h w : ℕ} (x : T4 bs c h w α) :
    T4 bs c (h + 2) (w + 2) α :=
  fun b ci u v =>
    if hh : 0 < h ∧ 0 < w then
      x b ci ⟨(u.val + (h - 1)) % h, Nat.mod_lt _ hh.1⟩
        ⟨(v.val + (w - 1)) % w, Nat.mod_lt _ hh.2⟩
    else 0

/-- `iConv2d.forward` with `circ=True` (coupling_layers.py, lines 25–29):
`F.conv2d(pad_circular_nd(x, 1, dim=[2,3]), weight, bias)` — a valid
cross-correlation of the circularly padded input against the 3×3 kernel. -/
def iConv2d_forward [CommRing α] {bs c h w : ℕ}
    (weight : Fin c → Fin c → Fin 3 → Fin 3 → α) (bias : Fin c → α)
    (x : T4 bs c h w α) : T4 bs c h w α :=
  fun b o i j =>
    (∑ ci, ∑ a : Fin 3, ∑ b' : Fin 3,
      weight o ci a b' *
        padCircular x b ci
          ⟨i.val + a.val, by have h1 := i.isLt; have h2 := a.isLt; omega⟩
          ⟨j.val + b'.val, by have h1 := j.isLt; have h2 := b'.isLt; omega⟩) + bias o

/-- `iConv2d.inverse` (coupling_layers.py, lines 33–35):
`inverse_fft_conv3x3_pytorch(y - bias, weight)`. -/
def iConv2d_inverse [Field α] (e : ℤ → Cx α) {bs c n : ℕ}
    (weight : Fin c → Fin c → Fin 3 → Fin 3 → α) (bias : Fin c → α)
    (y : T4 bs c n n α) : T4 bs c n n α :=
  inverse_fft_conv3x3_pytorch e (fun b ci i j => y b ci i j - bias ci) weight

/-- Diagnostic variant of `inverse_fft_conv3x3_pytorch` that is identical to
the source except that the line `padded_weight[..., 1] *= -1` is omitted.
It is used below to show that the failed round trip of `iConv2d` is caused by
exactly that line. -/
def inverse_fft_conv3x3_noNegate [Field α] (e : ℤ → Cx α) {bs c n : ℕ}
    (x : T4 bs c n n α) (weight : Fin c → Fin c → Fin 3 → Fin 3 → α) :
    T4 bs c n n α :=
  let fft_input : Fin bs → Fin c → Fin n → Fin n → Cx α :=
    fun b ci => rfft2 e e (x b ci)
  let phi_fft_input : Fin n → Fin n → Fin (c + c) → Fin bs → α :=
    fun k l j b => phiVec (fun ci => fft_input b ci k l) j
  let padded_weight : Fin c → Fin c → Fin n → Fin n → α :=
    fun o i m nn =>
      if hm : (n - 3) / 2 ≤ m.val ∧ m.val < (n - 3) / 2 + 3 ∧
              (n - 3) / 2 ≤ nn.val ∧ nn.val < (n - 3) / 2 + 3 then
        weight o i ⟨m.val - (n - 3) / 2, by omega⟩ ⟨nn.val - (n - 3) / 2, by omega⟩
      else 0
  let fft_weight : Fin c → Fin c → Fin n → Fin n → Cx α :=
    fun o i => rfft2 e e (padded_weight o i)
  let inverse_phi_fft_weight : Fin n → Fin n → Fin (c + c) → Fin (c + c) → α :=
    fun k l => matInverse (phiMat (fun o i => fft_weight o i k l))
  let product : Fin bs → Fin c → Fin n → Fin n → Cx α :=
    fun b ci k l =>
      phiInvVec (matVec (inverse_phi_fft_weight k l) (fun j => phi_fft_input k l j b)) ci
  let conv_inverse : Fin bs → Fin c → Fin n → Fin n → α :=
    fun b ci => irfft2 e e (product b ci)
  fun b ci i j =>
    rollTorch (-(((n - 1) / 2 : ℕ) : ℤ))
      (fun i' => rollTorch (-(((n - 1) / 2 : ℕ) : ℤ))
        (fun j' => conv_inverse b ci i' j') j) i

/-- The concrete failing input for the `iConv2d` round trip: a one-hot
`(1, 1, 4, 4)` batch. -/
def c1x : T4 1 1 4 4 ℚ := fun _ _ i j => if i.val = 0 ∧ j.val = 0 then 1 else 0

/-- A 3×3 kernel equal to the convolution identity: a single 1 at the centre
tap, so the circular forward convolution is the identity map. -/
def c1K : Fin 1 → Fin 1 → Fin 3 → Fin 3 → ℚ :=
  fun _ _ a b => if a.val = 1 ∧ b.val = 1 then 1 else 0

/-- Zero bias for the failing input. -/
def c1b : Fin 1 → ℚ := fun _ => 0

/-- `iConv1x1.forward` (coupling_layers.py, lines 65–67): per-pixel channel
mixing `F.conv2d(x, weight, bias)` together with the side effect
`self._input_shape = x.shape`, returned here as an explicit cache. -/
def iConv1x1_forward {bs c h w : ℕ} (W : Fin c → Fin c → ℝ) (bias : Fin c → ℝ)
    (x : T4 bs c h w ℝ) : T4 bs c h w ℝ × (ℕ × ℕ × ℕ × ℕ) :=
  (fun b o i j => (∑ ci, W o ci * x b ci i j) + bias o, (bs, c, h, w))

/-- `iConv1x1.logdet` (coupling_layers.py, lines 55–57):
`(torch.slogdet(W)[1] * h * w).expand(bs)` where `(bs, c, h, w)` is the
shape cached by `forward` and `torch.slogdet(W)[1] = log |det W|`. -/
noncomputable def iConv1x1_logdet {c : ℕ} (W : Fin c → Fin c → ℝ)
    (cache : ℕ × ℕ × ℕ × ℕ) : Fin cache.1 → ℝ :=
  fun _ => Real.log |detL W| * cache.2.2.1 * cache.2.2.2

/-- `iConv1x1.inverse` (coupling_layers.py, lines 58–63):
`F.conv2d(y - bias, torch.inverse(W))` (the double-precision round trip of
the source is exact arithmetic here). -/
noncomputable def iConv1x1_inverse {bs c h w : ℕ} (W : Fin c → Fin c → ℝ) (bias : Fin c → ℝ)
    (y : T4 bs c h w ℝ) : T4 bs c h w ℝ :=
  fun b o i j => ∑ ci, matInverse W o ci * (y b ci i j - bias ci)

/-- `iCoordInjection.forward` (coupling_layers.py, lines 78–85):
`x * exp(mul_net(coords)) + bias_net(coords)`.  The two coordinate networks
take no data input, so their outputs are fixed per-position tensors
`log_mul` and `bias`, kept abstract here. -/
noncomputable def iCoordInjection_forward {bs c h w : ℕ}
    (log_mul bias : Fin c → Fin h → Fin w → ℝ) (x : T4 bs c h w ℝ) :
    T4 bs c h w ℝ :=
  fun b ci i j => x b ci i j * Real.exp (log_mul ci i j) + bias ci i j

/-- `iCoordInjection.inverse` (coupling_layers.py, lines 86–91):
`(y - bias) / exp(mul_net(coords))`. -/
noncomputable def iCoordInjection_inverse {bs c h w : ℕ}
    (log_mul bias : Fin c → Fin h → Fin w → ℝ) (y : T4 bs c h w ℝ) :
    T4 bs c h w ℝ :=
  fun b ci i j => (y b ci i j - bias ci i j) / Real.exp (log_mul ci i j)

/-- `iCoordInjection.logdet` (coupling_layers.py, lines 92–93):
`log_mul.sum(3).sum(2).sum(1)`, one scalar per batch element. -/
def iCoordInjection_logdet {bs c h w : ℕ}
    (log_mul : Fin c → Fin h → Fin w → ℝ) : Fin bs → ℝ :=
  fun _ => ∑ ci, ∑ i, ∑ j, log_mul ci i j

/-! ### Cholesky factorisation and the `iConv2d` log-determinant -/

/-- The Cholesky–Banachiewicz recurrence (the embedding of
`torch.cholesky`): for a symmetric positive-definite input `A` this is the
lower-triangular `L` with `L * Lᵀ = A`;
`L i i = sqrt (A i i - ∑_{k<i} L i k ^ 2)` and for `j < i`
`L i j = (A i j - ∑_{k<j} L i k * L j k) / L j j`.  Entries above the
diagonal are `0`.  The square-root function of the field is a parameter
(`Real.sqrt` at the use sites). -/
def cholEntry [Field α] {m : ℕ} (s : α → α) (A : Fin m → Fin m → α) :
    ℕ → ℕ → α
  | i, j =>
    if h : i < m ∧ j < m ∧ j ≤ i then
      if _hij : j = i then
        s (A ⟨i, h.1⟩ ⟨i, h.1⟩ -
          ∑ k ∈ (Finset.range j).attach, cholEntry s A i k.val * cholEntry s A i k.val)
      else
        (A ⟨i, h.1⟩ ⟨j, h.2.1⟩ -
          ∑ k ∈ (Finset.range j).attach, cholEntry s A i k.val * cholEntry s A j k.val) /
          cholEntry s A j j
    else 0
  termination_by i j => (j, i)
  decreasing_by
  · exact Prod.Lex.left _ _ (Finset.mem_range.mp k.2)
  · exact Prod.Lex.left _ _ (Finset.mem_range.mp k.2)
  · exact Prod.Lex.left _ _ (Finset.mem_range.mp k.2)
  · exact Prod.Lex.right _ (by omega)

/-- `torch.cholesky(A)` as a `Fin`-indexed matrix. -/
def cholesky [Field α] {m : ℕ} (s : α → α) (A : Fin m → Fin m → α) :
    Fin m → Fin m → α :=
  fun i j => cholEntry s A i.val j.val

/-- `iConv2d.logdet` padding step (coupling_layers.py, line 38):
`F.pad(self.conv.weight, (0, h-3, 0, w-3))` pads the *last* axis (width) to
length `h` and the *second-to-last* axis (height) to length `w` — the two
pad amounts are swapped relative to the input's spatial shape, which
coincide exactly when `h = w`.  The 3×3 kernel sits in the top-left corner. -/
def logdetPaddedWeight {c : ℕ} (h w : ℕ)
    (weight : Fin c → Fin c → Fin 3 → Fin 3 → ℝ) :
    Fin c → Fin c → Fin w → Fin h → ℝ :=
  fun o i m nn =>
    if hm : m.val < 3 ∧ nn.val < 3 then
      weight o i ⟨m.val, hm.1⟩ ⟨nn.val, hm.2⟩
    else 0

/-- The per-frequency-bin realified kernel matrix `D` of `iConv2d.logdet`
(coupling_layers.py, lines 39–41): `phi(torch.rfft(padded_weight, 2))`
read per bin. -/
noncomputable def logdetD {c : ℕ} (h w : ℕ)
    (weight : Fin c → Fin c → Fin 3 → Fin 3 → ℝ) (k : Fin w) (l : Fin h) :
    Fin (c + c) → Fin (c + c) → ℝ :=
  phiMat (fun o i => rfft2 (twR w) (twR h) (logdetPaddedWeight h w weight o i) k l)

/-- The regularised Gram matrix `D @ D.t() + 1e-5 * eye` that the code
factorises (coupling_layers.py, lines 42–44). -/
noncomputable def logdetGram {c : ℕ} (h w : ℕ)
    (weight : Fin c → Fin c → Fin 3 → Fin 3 → ℝ) (k : Fin w) (l : Fin h) :
    Fin (c + c) → Fin (c + c) → ℝ :=
  fun i j => (∑ t, logdetD h w weight k l i t * logdetD h w weight k l j t) +
    if i = j then 1 / 100000 else 0

/-- `iConv2d.logdet` (coupling_layers.py, lines 36–48): Cholesky-factorise
the regularised Gram matrix per frequency bin, take
`eigs.log().sum() / 2.0` over every bin and diagonal position, and
`expand` the scalar to the batch size cached by `forward`. -/
noncomputable def iConv2d_logdet {c : ℕ} (bs h w : ℕ)
    (weight : Fin c → Fin c → Fin 3 → Fin 3 → ℝ) : Fin bs → ℝ :=
  fun _ => (∑ k, ∑ l, ∑ i,
    Real.log (cholesky Real.sqrt (logdetGram h w weight k l) i i)) / 2

/-- C4's description of `iConv2d.logdet`, taken at its word: realify each
per-frequency-bin complex kernel matrix to `D`, add the `1e-5` diagonal
regulariser *to `D` itself*, Cholesky-factorise that, and sum
`0.5 * log (product of the Cholesky diagonal)` over the frequency bins
(no Gram matrix `D @ Dᵀ` appears in the claim). -/
noncomputable def iConv2d_logdet_claimed {c : ℕ} (bs h w : ℕ)
    (weight : Fin c → Fin c → Fin 3 → Fin 3 → ℝ) : Fin bs → ℝ :=
  fun _ => ∑ k, ∑ l, (1 / 2 : ℝ) *
    Real.log (∏ i, cholesky Real.sqrt
      (fun i' j' => logdetD h w weight k l i' j' + if i' = j' then 1 / 100000 else 0) i i)

/-- The amended description of `iConv2d.logdet`: as C4, but the Cholesky
factorisation is applied to the regularised Gram matrix
`D @ Dᵀ + 1e-5 * eye` (matching the code), and the per-bin contribution is
`0.5 * log (product of the Cholesky diagonal)` of that factor. -/
noncomputable def iConv2d_logdet_amended {c : ℕ} (bs h w : ℕ)
    (weight : Fin c → Fin c → Fin 3 → Fin 3 → ℝ) : Fin bs → ℝ :=
  fun _ => ∑ k, ∑ l, (1 / 2 : ℝ) *
    Real.log (∏ i, cholesky Real.sqrt (logdetGram h w weight k l) i i)

/-- The concrete kernel separating C4's description from the code:
`2 * delta` at the top-left tap, whose padded DFT is the constant `2`. -/
def c4K : Fin 1 → Fin 1 → Fin 3 → Fin 3 → ℝ :=
  fun _ _ a b => if a.val = 0 ∧ b.val = 0 then 2 else 0

/-- C5's description of `iConv2d.inverse`: subtract the bias, invert the
realified per-frequency-bin kernel matrix in the frequency domain (the
`fft_deconv3x3` core), then correct the circular shift by rolling the result
by `-((h-1)//2)` along the height axis and `-((w-1)//2)` along the width
axis; rolling by `-s` sends output entry `i` to input entry `(i + s) % n`,
written here in that direct form. -/
noncomputable def iConv2d_inverse_claimed {bs c n : ℕ}
    (weight : Fin c → Fin c → Fin 3 → Fin 3 → ℝ) (bias : Fin c → ℝ)
    (y : T4 bs c n n ℝ) : T4 bs c n n ℝ :=
  fun b ci i j =>
    fft_deconv3x3 (twR n) (fun b' ci' i' j' => y b' ci' i' j' - bias ci') weight b ci
      ⟨(i.val + (n - 1) / 2) % n, Nat.mod_lt _ i.pos⟩
      ⟨(j.val + (n - 1) / 2) % n, Nat.mod_lt _ j.pos⟩

/-- Concrete tensor used to instantiate the `split`/`merge` round trip. -/
def c7x : T4 1 2 1 1 ℚ := fun _ i _ _ => if i.val = 0 then 3 else 7

/-! ## Theorems -/

/-- `l` is a prefix of itself. -/
theorem isPrefixOf_self (l : List Char) : l.isPrefixOf l = true := by
  induction l with
  | nil => rfl
  | cons c t ih => simp [List.isPrefixOf, ih]

/-- A list occurs in any list that ends with it. -/
theorem containsSub_append (nd pre : List Char) : containsSub nd (pre ++ nd) = true := by
  induction pre with
  | nil =>
    cases nd with
    | nil => rfl
    | cons c t => simp [containsSub, isPrefixOf_self]
  | cons c t ih => simp [containsSub, ih]

/-- C10: the squeeze layer's public interface operates on pairs: `forward`
takes `(x, z)` to `(squeeze x r, z)` and `inverse` takes `(y, z)` to
`(unsqueeze y r, z)`; in both directions the second component is passed
through completely unchanged. -/
theorem SqueezeLayer_pair_passthrough {α ζ : Type} {bs c H W C h w : ℕ} (r : ℕ)
    (x : T4 bs c H W α) (z : ζ) (y : T4 bs C h w α) (z' : ζ) :
    SqueezeLayer_forward r (x, z) = (squeeze x r, z) ∧
    SqueezeLayer_inverse r (y, z') = (unsqueeze y r, z') :=
  ⟨rfl, rfl⟩

/-- C2 (counterexample): calling `SqueezeLayer.logdet` does not return `0`;
at a concrete batch it raises `NotImplementedError` instead. -/
theorem SqueezeLayer_logdet_not_zero :
    SqueezeLayer_logdet 2 (fun _ _ _ _ => (0 : ℚ) : T4 1 4 2 2 ℚ) ≠
      Except.ok 0 :=
  fun h => Except.noConfusion h

/-- C2 (amended): calling `SqueezeLayer.logdet` raises `NotImplementedError`
for every downscale factor and every input (the reshape is a pure
permutation whose mathematical log-determinant is zero, but the method is
not implemented). -/
theorem SqueezeLayer_logdet_raises {α : Type} {bs c h w : ℕ} (r : ℕ)
    (y : T4 bs c h w α) :
    SqueezeLayer_logdet r y = Except.error ("NotImplementedError") :=
  rfl

/-- C7: for every `k ≤ c`, `merge` applied to the two parts returned by
`split x k` reconstructs `x` exactly (up to the arithmetic identity
`min k c + (c - k) = c` of the channel count). -/
theorem split_merge_id {α : Type} {bs c h w : ℕ} (k : ℕ) (hk : k ≤ c)
    (x : T4 bs c h w α) :
    merge (split x k).1 (split x k).2 =
      fun b (i : Fin (min k c + (c - k))) y x' => x b ⟨i.val, by omega⟩ y x' := by
  funext b i y x'
  simp only [merge, split]
  by_cases hi : i.val < min k c
  · rw [dif_pos hi]
  · rw [dif_neg hi]
    congr 1
    apply Fin.ext
    simp only []
    omega

/-- C7 witness at `c = 2`, `k = 1`. -/
theorem split_merge_id_witness :
    1 ≤ 2 ∧ (merge (split c7x 1).1 (split c7x 1).2 =
      fun b (i : Fin (min 1 2 + (2 - 1))) y x' => c7x b ⟨i.val, by omega⟩ y x') :=
  ⟨by decide, split_merge_id 1 (by decide) c7x⟩

/-- C8: for every pad size `p`, `padChannels.inverse ∘ padChannels.forward`
is the identity (up to the arithmetic identity `c + p - p = c` of the
channel count): the appended zero channels are truncated back exactly. -/
theorem padChannels_roundtrip {α : Type} [Zero α] {bs c h w : ℕ} (p : ℕ)
    (x : T4 bs c h w α) :
    padChannels_inverse p (padChannels_forward p x) =
      fun b (i : Fin (c + p - p)) y x' => x b ⟨i.val, by omega⟩ y x' := by
  funext b i y x'
  have hi : i.val < c := by have := i.isLt; omega
  simp only [padChannels_inverse, padChannels_forward]
  rw [dif_pos hi]

/-- C9 (counterexample): `CIFAR10` is rejected by the configuration
prologue, but the error message `Only MNIST is implemented` does not echo
the dataset name. -/
theorem datasetSelect_no_echo :
    datasetSelect ("CIFAR10") = Except.error ("Only MNIST is implemented") ∧
    echoesName ("CIFAR10") ("Only MNIST is implemented") = false := by
  constructor
  · rfl
  · decide

/-- C9 (amended): a dataset name outside `{mnist, cifar10, svhn}`
(case-insensitively) fails eagerly — before the data loaders and the model
are built — with `ValueError("Unsupported dataset " + name)`, whose message
echoes the invalid name verbatim; the recognised-but-unimplemented names
`cifar10`/`svhn` instead raise `Only MNIST is implemented` without echoing
the name. -/
theorem datasetSelect_unsupported_echoes (name : String)
    (h1 : strLower name ≠ ("mnist")) (h2 : strLower name ≠ ("cifar10"))
    (h3 : strLower name ≠ ("svhn")) :
    datasetSelect name = Except.error ("Unsupported dataset " ++ name) ∧
    echoesName name ("Unsupported dataset " ++ name) = true := by
  refine ⟨?_, ?_⟩
  · simp [datasetSelect, h1, h2, h3]
  · show containsSub name.data (("Unsupported dataset " ++ name).data) = true
    rw [String.data_append]
    exact containsSub_append name.data _

/-- C9 witness at the unsupported name `imagenet`. -/
theorem datasetSelect_unsupported_echoes_witness :
    strLower ("imagenet") ≠ ("mnist") ∧
    strLower ("imagenet") ≠ ("cifar10") ∧
    strLower ("imagenet") ≠ ("svhn") ∧
    (datasetSelect ("imagenet") =
        Except.error ("Unsupported dataset " ++ "imagenet") ∧
      echoesName ("imagenet") ("Unsupported dataset " ++ "imagenet") = true) :=
  ⟨by decide, by decide, by decide,
    datasetSelect_unsupported_echoes ("imagenet") (by decide) (by decide) (by decide)⟩

/-- C3: when the labeled mask of a training batch selects zero samples, the
cross-entropy term of the training step is the mean over an empty selection
— `0/0`, an IEEE NaN (embedded `none`) — and in particular it is *not* the
real number `0` the claim (and the spec) promise.  No exception is raised. -/
theorem trainLossNll_empty_mask_nan :
    trainLossNll 10 (fun (_ : Fin 2) (_ : Fin 4) => (0 : ℝ))
        (fun _ => NO_LABEL) (fun _ _ => 0) = none ∧
      (none : Option ℝ) ≠ some 0 :=
  ⟨rfl, fun h => Option.noConfusion h⟩

/-- C6: after a forward pass of `iConv1x1` on an input of shape
`(bs, c, h, w)`, `logdet` applied to the cached shape returns
`log |det W| * h * w`, broadcast to the batch size. -/
theorem iConv1x1_logdet_cached_spec {bs c h w : ℕ} (W : Fin c → Fin c → ℝ)
    (bias : Fin c → ℝ) (x : T4 bs c h w ℝ) :
    iConv1x1_logdet W (iConv1x1_forward W bias x).2 =
      fun _ : Fin bs => Real.log |detL W| * h * w :=
  rfl

/-- `torch.roll` by a negative amount `-s` reads entry `(i + s) % n`. -/
theorem rollTorch_neg_nat {α : Type} {n : ℕ} (s : ℕ) (v : Fin n → α) (i : Fin n) :
    rollTorch (-(s : ℤ)) v i = v ⟨(i.val + s) % n, Nat.mod_lt _ i.pos⟩ := by
  unfold rollTorch
  congr 1
  apply Fin.ext
  have h : ((i.val : ℤ) - -(s : ℤ)) = ((i.val + s : ℕ) : ℤ) := by push_cast; ring
  show ((((i.val : ℤ) - -(s : ℤ)) % (n : ℤ)).toNat) = (i.val + s) % n
  rw [h, ← Int.natCast_mod, Int.toNat_natCast]

/-- C5: for every output tensor `y` of shape `(bs, c, n, n)`, the
`iConv2d` inverse subtracts the bias, inverts the realified
per-frequency-bin kernel matrix in the frequency domain
(`fft_deconv3x3`), and corrects the circular shift by rolling the result by
`-((h-1)//2)` along the height axis and `-((w-1)//2)` along the width axis
— exactly the pipeline described by the specification. -/
theorem iConv2d_inverse_matches_claim {bs c n : ℕ}
    (W : Fin c → Fin c → Fin 3 → Fin 3 → ℝ) (bias : Fin c → ℝ)
    (y : T4 bs c n n ℝ) :
    iConv2d_inverse (twR n) W bias y = iConv2d_inverse_claimed W bias y := by
  funext b ci i j
  simp only [iConv2d_inverse, inverse_fft_conv3x3_pytorch]
  rw [rollTorch_neg_nat, rollTorch_neg_nat]
  rfl

/-- The rational kernel `tw4` is exactly the real DFT kernel `twR 4`
transported along `ℚ → ℝ`, so computations of the FFT pipeline over `ℚ`
with `tw4` are computations of the real pipeline. -/
theorem twR_four_eq (k : ℤ) :
    twR 4 k = ⟨((tw4 k).re : ℝ), ((tw4 k).im : ℝ)⟩ := by
  have hid : 4 * (k / 4) + k % 4 = k := Int.ediv_add_emod k 4
  have hkr : (k : ℝ) = 4 * ((k / 4 : ℤ) : ℝ) + ((k % 4 : ℤ) : ℝ) := by
    conv_lhs => rw [← hid]
    push_cast; ring
  have hang : 2 * Real.pi * (k : ℝ) / ((4 : ℕ) : ℝ) =
      Real.pi * ((k % 4 : ℤ) : ℝ) / 2 + (k / 4 : ℤ) * (2 * Real.pi) := by
    rw [hkr]; push_cast; ring
  have h : k % 4 = 0 ∨ k % 4 = 1 ∨ k % 4 = 2 ∨ k % 4 = 3 := by omega
  simp only [twR, hang, Real.cos_add_int_mul_two_pi, Real.sin_add_int_mul_two_pi]
  rcases h with h | h | h | h
  · apply Cx.ext <;> simp [tw4, h]
  · apply Cx.ext <;> simp [tw4, h]
  · apply Cx.ext <;> simp [tw4, h]
  · have h32 : Real.pi * (3 : ℝ) / 2 = Real.pi / 2 + Real.pi := by ring
    apply Cx.ext
    · simp [tw4, h, h32, Real.cos_add_pi]
    · simp [tw4, h, h32, Real.sin_add_pi]

set_option maxHeartbeats 4000000 in
set_option maxRecDepth 100000 in
unseal Rat.add Rat.mul Rat.inv Rat.sub in
/-- C1 (the code evaluated at the failing input): with the convolution
identity kernel `c1K` (forward is the identity map) and zero bias, the FFT
inverse of `iConv2d` returns `-1` at entry `(0,0,0,0)` of
`inverse(forward(c1x))` while `c1x` holds `1` there — the round trip
`inverse(forward(x)) = x` fails.  (The full inverse equals `-c1x`; the
negated value is produced because `padded_weight[..., 1] *= -1` negates the
centre column of the 3×3 kernel once it is padded to width 4.) -/
theorem iConv2d_roundtrip_fails :
    iConv2d_inverse tw4 c1K c1b (iConv2d_forward c1K c1b c1x) 0 0 0 0 = -1 ∧
    c1x 0 0 0 0 = 1 :=
  ⟨by decide, by decide⟩

set_option maxHeartbeats 4000000 in
set_option maxRecDepth 100000 in
unseal Rat.add Rat.mul Rat.inv Rat.sub in
/-- With the line `padded_weight[..., 1] *= -1` removed and everything else
unchanged, the same round trip succeeds at the same entry: the failure of
`iConv2d_roundtrip_fails` is caused by exactly that line. -/
theorem inverse_fft_noNegate_roundtrips :
    inverse_fft_conv3x3_noNegate tw4 (iConv2d_forward c1K c1b c1x) c1K 0 0 0 0 = 1 := by
  decide

/-- The padded C4 kernel is `2` at the origin and `0` elsewhere. -/
theorem c4_padded_eval (o i : Fin 1) :
    logdetPaddedWeight 4 4 c4K o i =
      fun m nn => if m.val = 0 ∧ nn.val = 0 then (2 : ℝ) else 0 := by
  funext m nn
  unfold logdetPaddedWeight c4K
  by_cases hm : m.val < 3 ∧ nn.val < 3
  · rw [dif_pos hm]
  · rw [dif_neg hm]
    have h0 : ¬(m.val = 0 ∧ nn.val = 0) := by omega
    rw [if_neg h0]

/-- Every frequency bin of the padded C4 kernel's DFT equals `2`. -/
theorem c4_fft_eval (o i : Fin 1) (k : Fin 4) (l : Fin 4) :
    rfft2 (twR 4) (twR 4) (logdetPaddedWeight 4 4 c4K o i) k l = ⟨2, 0⟩ := by
  rw [c4_padded_eval]
  unfold rfft2
  rw [Finset.sum_eq_single (0 : Fin 4)]
  · rw [Finset.sum_eq_single (0 : Fin 4)]
    · have ht : twR 4 ((0 : ℤ)) = ⟨1, 0⟩ := by
        unfold twR
        norm_num
      norm_num [ht]
      apply Cx.ext <;> simp
    · intro b _ hb
      have hb' : ¬((0 : Fin 4).val = 0 ∧ b.val = 0) := by
        intro hc
        exact hb (Fin.ext hc.2)
      show (⟨if (0 : Fin 4).val = 0 ∧ b.val = 0 then (2 : ℝ) else 0, 0⟩ : Cx ℝ) *
          twR 4 ((k.val * (0 : Fin 4).val : ℕ) : ℤ) *
          twR 4 ((l.val * b.val : ℕ) : ℤ) = 0
      rw [if_neg hb']
      rw [show (⟨0, 0⟩ : Cx ℝ) = 0 from rfl, zero_mul, zero_mul]
    · intro habs
      exact absurd (Finset.mem_univ _) habs
  · intro m _ hm
    apply Finset.sum_eq_zero
    intro nn _
    have hm' : ¬(m.val = 0 ∧ nn.val = 0) := by
      intro hc
      exact hm (Fin.ext hc.1)
    show (⟨if m.val = 0 ∧ nn.val = 0 then (2 : ℝ) else 0, 0⟩ : Cx ℝ) *
        twR 4 ((k.val * m.val : ℕ) : ℤ) *
        twR 4 ((l.val * nn.val : ℕ) : ℤ) = 0
    rw [if_neg hm']
    rw [show (⟨0, 0⟩ : Cx ℝ) = 0 from rfl, zero_mul, zero_mul]
  · intro habs
    exact absurd (Finset.mem_univ _) habs

/-- The realified per-bin C4 kernel matrix is `2 * I`. -/
theorem c4_D_eval (k : Fin 4) (l : Fin 4) :
    logdetD 4 4 c4K k l = fun i j => if i = j then (2 : ℝ) else 0 := by
  funext i j
  unfold logdetD
  have hf : (fun (o i' : Fin 1) =>
      rfft2 (twR 4) (twR 4) (logdetPaddedWeight 4 4 c4K o i') k l) =
      fun _ _ => (⟨2, 0⟩ : Cx ℝ) := by
    funext o i'
    exact c4_fft_eval o i' k l
  rw [hf]
  unfold phiMat
  fin_cases i <;> fin_cases j <;> simp

/-- The regularised Gram matrix of the C4 kernel is `(4 + 1e-5) * I`. -/
theorem c4_gram_eval (k : Fin 4) (l : Fin 4) :
    logdetGram 4 4 c4K k l = fun i j => if i = j then (4 + 1 / 100000 : ℝ) else 0 := by
  funext i j
  unfold logdetGram
  simp only [c4_D_eval]
  fin_cases i <;> fin_cases j <;> simp [Fin.sum_univ_two] <;> norm_num

/-- The Cholesky factor of the 2×2 matrix `aC * I` has diagonal `sqrt aC`. -/
theorem cholesky_diag_two (aC : ℝ) (A : Fin 2 → Fin 2 → ℝ)
    (hA : A = fun i j => if i = j then aC else 0) (i : Fin 2) :
    cholesky Real.sqrt A i i = Real.sqrt aC := by
  subst hA
  have h10 : cholEntry Real.sqrt
      (fun i j : Fin 2 => if i = j then aC else 0) 1 0 = 0 := by
    rw [cholEntry]
    rw [dif_pos (show 1 < 2 ∧ 0 < 2 ∧ 0 ≤ 1 by omega)]
    rw [dif_neg (show ¬(0 : ℕ) = 1 by omega)]
    simp [Fin.ext_iff]
  fin_cases i
  · show cholEntry Real.sqrt _ 0 0 = _
    rw [cholEntry]
    rw [dif_pos (show 0 < 2 ∧ 0 < 2 ∧ 0 ≤ 0 by omega)]
    rw [dif_pos rfl]
    simp
  · show cholEntry Real.sqrt _ 1 1 = _
    rw [cholEntry]
    rw [dif_pos (show 1 < 2 ∧ 1 < 2 ∧ 1 ≤ 1 by omega)]
    rw [dif_pos rfl]
    rw [Finset.sum_attach (Finset.range 1)
      (fun n => cholEntry Real.sqrt (fun i j : Fin 2 => if i = j then aC else 0) 1 n *
        cholEntry Real.sqrt (fun i j : Fin 2 => if i = j then aC else 0) 1 n)]
    rw [Finset.sum_range_one, h10]
    simp

/-- C4 (counterexample): at the kernel `c4K` the pipeline described by the
claim (Cholesky of `D + 1e-5*I`) computes `8 * log (2 + 1e-5)` while the
code (Cholesky of `D @ Dᵀ + 1e-5*I`) computes `8 * log (4 + 1e-5)`. -/
theorem iConv2d_logdet_claim_counterexample :
    iConv2d_logdet_claimed 1 4 4 c4K ≠ iConv2d_logdet 1 4 4 c4K := by
  intro hEq
  have h0 := congrFun hEq 0
  have hcode : iConv2d_logdet 1 4 4 c4K (0 : Fin 1) =
      8 * Real.log (4 + 1 / 100000) := by
    unfold iConv2d_logdet
    have hbin : ∀ (k l : Fin 4) (i : Fin (1 + 1)),
        cholesky Real.sqrt (logdetGram 4 4 c4K k l) i i =
          Real.sqrt (4 + 1 / 100000) :=
      fun k l i => cholesky_diag_two _ _ (c4_gram_eval k l) i
    simp only [hbin, Finset.sum_const, Finset.card_univ, Fintype.card_fin,
      nsmul_eq_mul]
    rw [Real.log_sqrt (by norm_num)]
    ring
  have hclaim : iConv2d_logdet_claimed 1 4 4 c4K (0 : Fin 1) =
      8 * Real.log (2 + 1 / 100000) := by
    unfold iConv2d_logdet_claimed
    have hmat : ∀ (k l : Fin 4),
        (fun i' j' => logdetD 4 4 c4K k l i' j' +
          if i' = j' then (1 / 100000 : ℝ) else 0) =
        fun i' j' => if i' = j' then (2 + 1 / 100000 : ℝ) else 0 := by
      intro k l
      funext i' j'
      simp only [c4_D_eval]
      split_ifs <;> norm_num
    have hbin : ∀ (k l : Fin 4),
        (∏ i, cholesky Real.sqrt
          (fun i' j' => logdetD 4 4 c4K k l i' j' +
            if i' = j' then (1 / 100000 : ℝ) else 0) i i) =
        (2 + 1 / 100000 : ℝ) := by
      intro k l
      have hd : ∀ i : Fin (1 + 1), cholesky Real.sqrt
          (fun i' j' => logdetD 4 4 c4K k l i' j' +
            if i' = j' then (1 / 100000 : ℝ) else 0) i i =
          Real.sqrt (2 + 1 / 100000) :=
        fun i => cholesky_diag_two _ _ (hmat k l) i
      rw [Fin.prod_univ_two, hd, hd]
      exact Real.mul_self_sqrt (by norm_num)
    simp only [hbin, Finset.sum_const, Finset.card_univ, Fintype.card_fin,
      nsmul_eq_mul]
    ring
  rw [hclaim, hcode] at h0
  have hlt : Real.log (2 + 1 / 100000) < Real.log (4 + 1 / 100000) :=
    Real.log_lt_log (by norm_num) (by norm_num)
  linarith

/-- C4 (amended): `iConv2d.logdet` equals the amended description — realify,
form the Gram matrix `D @ Dᵀ`, add the `1e-5` diagonal regulariser, Cholesky,
and sum `0.5 * log (product of the Cholesky diagonal)` over the frequency
bins, broadcast to the batch — whenever the Cholesky diagonal is nonzero
(which holds for every positive-definite regularised Gram matrix). -/
theorem iConv2d_logdet_amended_spec {c : ℕ} (bs h w : ℕ)
    (W : Fin c → Fin c → Fin 3 → Fin 3 → ℝ)
    (hne : ∀ (k : Fin w) (l : Fin h) (i : Fin (c + c)),
      cholesky Real.sqrt (logdetGram h w W k l) i i ≠ 0) :
    iConv2d_logdet bs h w W = iConv2d_logdet_amended bs h w W := by
  funext b
  unfold iConv2d_logdet iConv2d_logdet_amended
  have hlog : ∀ (k : Fin w) (l : Fin h),
      Real.log (∏ i, cholesky Real.sqrt (logdetGram h w W k l) i i) =
        ∑ i, Real.log (cholesky Real.sqrt (logdetGram h w W k l) i i) :=
    fun k l => Real.log_prod _ _ (fun i _ => hne k l i)
  simp only [hlog]
  rw [Finset.sum_div]
  refine Finset.sum_congr rfl (fun k _ => ?_)
  rw [Finset.sum_div]
  refine Finset.sum_congr rfl (fun l _ => ?_)
  ring

/-- C4 witness at the kernel `c4K` with input shape `(1, 1, 4, 4)`. -/
theorem iConv2d_logdet_amended_spec_witness :
    (∀ (k : Fin 4) (l : Fin 4) (i : Fin (1 + 1)),
      cholesky Real.sqrt (logdetGram 4 4 c4K k l) i i ≠ 0) ∧
    iConv2d_logdet 1 4 4 c4K = iConv2d_logdet_amended 1 4 4 c4K := by
  have hne : ∀ (k : Fin 4) (l : Fin 4) (i : Fin (1 + 1)),
      cholesky Real.sqrt (logdetGram 4 4 c4K k l) i i ≠ 0 := by
    intro k l i
    rw [cholesky_diag_two _ _ (c4_gram_eval k l) i]
    exact (Real.sqrt_pos.mpr (by norm_num)).ne'
  exact ⟨hne, iConv2d_logdet_amended_spec 1 4 4 c4K hne⟩

/-- The Laplace-expansion determinant `detL` is the mathematical
determinant. -/
theorem detL_eq_det {α : Type} [CommRing α] :
    ∀ {m : ℕ} (A : Fin m → Fin m → α), detL A = (Matrix.of A).det := by
  intro m
  induction m with
  | zero =>
    intro A
    rw [Matrix.det_fin_zero]
    rfl
  | succ m ih =>
    intro A
    show (∑ i, (-1 : α) ^ (i : Fin (m + 1)).val * A i 0 * detL (minor A i 0)) =
      (Matrix.of A).det
    rw [Matrix.det_succ_column_zero]
    refine Finset.sum_congr rfl (fun i _ => ?_)
    rw [ih]
    congr 2

/-- The adjugate-based `matInverse` is the mathematical matrix inverse
(both are the zero matrix on singular inputs). -/
theorem matInverse_eq_inv {α : Type} [Field α] {m : ℕ} (A : Fin m → Fin m → α) :
    matInverse A = fun i j => (Matrix.of A)⁻¹ i j := by
  cases m with
  | zero => funext i j; exact i.elim0
  | succ m =>
    funext i j
    show (detL A)⁻¹ * ((-1 : α) ^ (i.val + j.val) * detL (minor A j i)) = _
    rw [Matrix.inv_def, Matrix.smul_apply,
      Matrix.adjugate_fin_succ_eq_det_submatrix, Ring.inverse_eq_inv,
      detL_eq_det, detL_eq_det]
    have hm : Matrix.of (minor A j i) =
        (Matrix.of A).submatrix j.succAbove i.succAbove := rfl
    rw [hm, add_comm i.val j.val, smul_eq_mul]

/-- Supporting C1: the `iConv1x1` round trip holds whenever the weight
matrix is nonsingular. -/
theorem iConv1x1_roundtrip {bs c h w : ℕ} (W : Fin c → Fin c → ℝ)
    (bias : Fin c → ℝ) (x : T4 bs c h w ℝ) (hW : detL W ≠ 0) :
    iConv1x1_inverse W bias (iConv1x1_forward W bias x).1 = x := by
  funext b o i j
  show (∑ ci, matInverse W o ci *
      ((∑ cj, W ci cj * x b cj i j) + bias ci - bias ci)) = x b o i j
  simp only [add_sub_cancel_right]
  rw [matInverse_eq_inv W]
  have hde : (Matrix.of W).det ≠ 0 := by rwa [← detL_eq_det]
  have hmul := Matrix.nonsing_inv_mul (Matrix.of W) (isUnit_iff_ne_zero.mpr hde)
  show ((Matrix.of W)⁻¹.mulVec ((Matrix.of W).mulVec (fun cj => x b cj i j))) o =
    x b o i j
  rw [Matrix.mulVec_mulVec, hmul, Matrix.one_mulVec]

/-- Supporting C1: the `iCoordInjection` round trip holds unconditionally
(the multiplicative factor `exp(log_mul)` is never zero). -/
theorem iCoordInjection_roundtrip {bs c h w : ℕ}
    (log_mul bias : Fin c → Fin h → Fin w → ℝ) (x : T4 bs c h w ℝ) :
    iCoordInjection_inverse log_mul bias
      (iCoordInjection_forward log_mul bias x) = x := by
  funext b ci i j
  show (x b ci i j * Real.exp (log_mul ci i j) + bias ci i j - bias ci i j) /
      Real.exp (log_mul ci i j) = x b ci i j
  rw [add_sub_cancel_right]
  exact mul_div_cancel_right₀ _ (Real.exp_ne_zero _)

end FlowGMM
